import Mathlib

/-!
Verification of the expression-evaluation engine of the
react-ts-calculator repository (src/components/Calculator.tsx).

JavaScript IEEE-754 numbers are modelled by `JSNum`: NaN, the two
infinities, negative zero, and exact rationals standing for the finite
doubles (no rounding of arithmetic is modelled; none of the verified
properties depend on double rounding). JavaScript strings are modelled
as `List Char`.
-/

/-- Model of a JavaScript number: NaN, plus or minus Infinity, negative
zero, or a finite value (an exact rational; `fin 0` is positive zero). -/
inductive JSNum where
  | nan
  | inf (neg : Bool)
  | negZero
  | fin (q : ℚ)
deriving DecidableEq

/-- Sign bit of a JavaScript number (true = negative). NaN is given a
clear sign bit; the calculator never depends on the sign of NaN. -/
def signBit : JSNum → Bool
  | JSNum.nan => false
  | JSNum.inf s => s
  | JSNum.negZero => true
  | JSNum.fin q => decide (q < 0)

/-- Whether a JavaScript number is a zero (positive or negative). -/
def isZero : JSNum → Bool
  | JSNum.negZero => true
  | JSNum.fin q => decide (q = 0)
  | _ => false

/-- The rational magnitude-with-sign of a finite JavaScript number
(negative zero contributes 0); 0 for NaN and the infinities. -/
def ratVal : JSNum → ℚ
  | JSNum.fin q => q
  | _ => 0

/-- Model of JavaScript strict equality `===` on numbers: NaN compares
unequal to everything, and `-0 === 0` holds. -/
def strictEq : JSNum → JSNum → Bool
  | JSNum.nan, _ => false
  | _, JSNum.nan => false
  | JSNum.inf s, JSNum.inf t => s == t
  | JSNum.inf _, _ => false
  | _, JSNum.inf _ => false
  | JSNum.negZero, JSNum.negZero => true
  | JSNum.negZero, JSNum.fin q => decide (q = 0)
  | JSNum.fin q, JSNum.negZero => decide (q = 0)
  | JSNum.fin a, JSNum.fin b => decide (a = b)

/-- Model of JavaScript `isFinite`. -/
def isFiniteJS : JSNum → Bool
  | JSNum.nan => false
  | JSNum.inf _ => false
  | _ => true

/-- IEEE-style addition on the model: NaN propagates, opposite
infinities give NaN, `-0 + -0 = -0`, and any other finite sum is exact. -/
def jsAdd : JSNum → JSNum → JSNum
  | JSNum.nan, _ => JSNum.nan
  | _, JSNum.nan => JSNum.nan
  | JSNum.inf s, JSNum.inf t => if s = t then JSNum.inf s else JSNum.nan
  | JSNum.inf s, _ => JSNum.inf s
  | _, JSNum.inf t => JSNum.inf t
  | JSNum.negZero, JSNum.negZero => JSNum.negZero
  | JSNum.negZero, JSNum.fin q => JSNum.fin q
  | JSNum.fin q, JSNum.negZero => JSNum.fin q
  | JSNum.fin a, JSNum.fin b => JSNum.fin (a + b)

/-- IEEE-style negation on the model: negation flips the sign bit, so
the negation of positive zero is negative zero and conversely. -/
def jsNeg : JSNum → JSNum
  | JSNum.nan => JSNum.nan
  | JSNum.inf s => JSNum.inf (!s)
  | JSNum.negZero => JSNum.fin 0
  | JSNum.fin q => if q = 0 then JSNum.negZero else JSNum.fin (-q)

/-- IEEE-style subtraction: `x - y = x + (-y)`. -/
def jsSub (x y : JSNum) : JSNum := jsAdd x (jsNeg y)

/-- IEEE-style multiplication on the model, with signed zeros:
the sign of a zero product is the exclusive-or of the operand signs. -/
def jsMul (x y : JSNum) : JSNum :=
  if x = JSNum.nan ∨ y = JSNum.nan then JSNum.nan
  else
    let sg := signBit x != signBit y
    match x, y with
    | JSNum.inf _, b => if isZero b then JSNum.nan else JSNum.inf sg
    | a, JSNum.inf _ => if isZero a then JSNum.nan else JSNum.inf sg
    | a, b =>
      let p := ratVal a * ratVal b
      if p = 0 then (if sg then JSNum.negZero else JSNum.fin 0) else JSNum.fin p

/-- IEEE-style division on the model, with signed zeros: infinity over
infinity and zero over zero give NaN, a nonzero finite value over a zero
gives a signed infinity, and a finite value over an infinity gives a
signed zero. -/
def jsDiv (x y : JSNum) : JSNum :=
  if x = JSNum.nan ∨ y = JSNum.nan then JSNum.nan
  else
    let sg := signBit x != signBit y
    match x, y with
    | JSNum.inf _, JSNum.inf _ => JSNum.nan
    | JSNum.inf _, _ => JSNum.inf sg
    | a, JSNum.inf _ =>
      match a with
      | _ => if sg then JSNum.negZero else JSNum.fin 0
    | a, b =>
      if isZero b then
        (if isZero a then JSNum.nan else JSNum.inf sg)
      else
        let p := ratVal a / ratVal b
        if p = 0 then (if sg then JSNum.negZero else JSNum.fin 0) else JSNum.fin p

/-- The four binary operators of the calculator. -/
inductive Op where
  | add
  | sub
  | mul
  | div
deriving DecidableEq

/-- A token: a numeric literal or a binary operator
(Calculator.tsx, `type Token = NumToken | OpToken`). -/
inductive Token where
  | num (v : JSNum)
  | op (o : Op)
deriving DecidableEq

/-- The fixed precedence table of `toRPN`:
`{ plus: 1, minus: 1, times: 2, divide: 2 }`. -/
def prec : Op → ℕ
  | Op.add => 1
  | Op.sub => 1
  | Op.mul => 2
  | Op.div => 2

/-- The while loop inside `toRPN`: pop (into the first component, in pop
order) every stack-top operator whose precedence is at least that of the
incoming operator `o`; the second component is the remaining stack. The
operator stack is a cons list whose head is the stack top. -/
def popWhileGE (o : Op) : List Op → List Op × List Op
  | [] => ([], [])
  | t :: rest =>
    if prec o ≤ prec t then
      let pr := popWhileGE o rest
      (t :: pr.1, pr.2)
    else ([], t :: rest)

/-- The loop of `toRPN` (Calculator.tsx lines 11 to 29): numbers go to
the output; an operator first pops the higher-or-equal-precedence stack
tops to the output, then is pushed; at the end the remaining stack is
popped into the output. The output is produced front to back. -/
def toRPNAux : List Token → List Op → List Token
  | [], ops => ops.map Token.op
  | Token.num v :: ts, ops => Token.num v :: toRPNAux ts ops
  | Token.op o :: ts, ops =>
    (popWhileGE o ops).1.map Token.op ++ toRPNAux ts (o :: (popWhileGE o ops).2)

/-- Shunting-yard conversion to postfix, `toRPN` of Calculator.tsx. -/
def toRPN (ts : List Token) : List Token := toRPNAux ts []

/-- Modelled from the spec wording of section 4.2 (claim C4): numeric
tokens are appended to the output in order; for an operator, every
stack-top operator of greater or equal precedence is popped to the
output (here `takeWhile` on the stack), then the operator is pushed onto
the rest (`dropWhile`); after all input, the remaining stack is popped
into the output. -/
def shuntSpec : List Token → List Op → List Token
  | [], st => st.map Token.op
  | Token.num v :: ts, st => Token.num v :: shuntSpec ts st
  | Token.op o :: ts, st =>
    (st.takeWhile (fun x => decide (prec o ≤ prec x))).map Token.op ++
      shuntSpec ts (o :: st.dropWhile (fun x => decide (prec o ≤ prec x)))

/-- Modelled from the spec wording of section 4.2: the whole conversion
starts from an empty operator stack. -/
def toPostfixSpec (ts : List Token) : List Token := shuntSpec ts []

/-- The operator dispatch of `evalRPN` (the switch on lines 39 to 44):
`a` is the left operand, `b` the right one; division checks `b === 0`
first and yields NaN in that case. -/
def applyOp (o : Op) (a b : JSNum) : JSNum :=
  match o with
  | Op.add => jsAdd a b
  | Op.sub => jsSub a b
  | Op.mul => jsMul a b
  | Op.div => if strictEq b (JSNum.fin 0) then JSNum.nan else jsDiv a b

/-- The loop of `evalRPN` (Calculator.tsx lines 31 to 48). The value
stack is a cons list whose head is the stack top; `stack[0]` of the
source, the first-pushed value, is thus the last element here. An
operator with fewer than two stack values returns NaN immediately; after
the loop the source returns `stack.length ? stack[0] : NaN`. -/
def evalRPNAux : List Token → List JSNum → JSNum
  | [], stack => (stack.getLast?).getD JSNum.nan
  | Token.num v :: ts, stack => evalRPNAux ts (v :: stack)
  | Token.op o :: ts, stack =>
    match stack with
    | b :: a :: rest => evalRPNAux ts (applyOp o a b :: rest)
    | _ => JSNum.nan

/-- Postfix evaluation, `evalRPN` of Calculator.tsx. -/
def evalRPN (rpn : List Token) : JSNum := evalRPNAux rpn []

/-- The stack trace of `evalRPN`: the final value stack after consuming
all tokens, or `none` if some operator found fewer than two stack
values. Used to state claim C1 about the stack discipline. -/
def runStack : List Token → List JSNum → Option (List JSNum)
  | [], st => some st
  | Token.num v :: ts, st => runStack ts (v :: st)
  | Token.op o :: ts, st =>
    match st with
    | b :: a :: rest => runStack ts (applyOp o a b :: rest)
    | _ => none

/-!
Decimal rendering. The source uses the JavaScript built-ins
`Number.prototype.toExponential`, `Number.prototype.toLocaleString` and
`String(-)`; they are modelled below over the exact rationals, following
the ECMAScript algorithms (rounding half away from zero on the
magnitude, which is the default of all three for decimal-exact values).
-/

/-- The decimal digit character for a value below ten. -/
def digitChar (n : ℕ) : Char := Char.ofNat (48 + n)

/-- Fuel-driven little-endian decimal digits of a natural number; the
fuel makes the recursion structural so that the kernel can evaluate it. -/
def natDigitsRevFuel : ℕ → ℕ → List Char
  | 0, _ => []
  | fuel + 1, n =>
    if n < 10 then [digitChar n]
    else digitChar (n % 10) :: natDigitsRevFuel fuel (n / 10)

/-- Little-endian decimal digits of a natural number (0 gives "0"). -/
def natDigitsRev (n : ℕ) : List Char := natDigitsRevFuel (n + 1) n

/-- Big-endian decimal digit string of a natural number. -/
def natStr (n : ℕ) : List Char := (natDigitsRev n).reverse

/-- Number of decimal digits of a natural number (one for 0). -/
def digitLen (n : ℕ) : ℕ := (natDigitsRev n).length

/-- The decimal digits of `n`, left-padded with zeros to width `w`. -/
def padLeft (w : ℕ) (n : ℕ) : List Char :=
  List.replicate (w - (natStr n).length) '0' ++ natStr n

/-- Remove trailing zero characters (used when a fraction is printed
with its significant digits only). -/
def dropTrailingZeros (l : List Char) : List Char :=
  (l.reverse.dropWhile (fun c => c == '0')).reverse

/-- Insert a comma after every three characters of a reversed digit
list: the grouping step of `toLocaleString` in the default locale. -/
def group3Rev : List Char → List Char
  | d1 :: d2 :: d3 :: d4 :: rest => d1 :: d2 :: d3 :: ',' :: group3Rev (d4 :: rest)
  | l => l

/-- Digit grouping of an integer digit string, comma every three digits
from the right, as `toLocaleString` renders it in the default locale. -/
def group3 (l : List Char) : List Char := (group3Rev l.reverse).reverse

/-- Ten to a natural power, as a rational, by structural recursion (the
kernel evaluates this directly, unlike the class-based power). -/
def pow10 : ℕ → ℚ
  | 0 => 1
  | n + 1 => pow10 n * 10

/-- Ten to an integer power, as a rational. -/
def zpow10 : ℤ → ℚ
  | Int.ofNat n => pow10 n
  | Int.negSucc n => 1 / pow10 (n + 1)

/-- Absolute value of a rational, by a sign test. -/
def qabs (q : ℚ) : ℚ := if q < 0 then -q else q

/-- Floor of a nonnegative rational, as a natural number. -/
def qfloorNat (q : ℚ) : ℕ := q.num.toNat / q.den

/-- Round a nonnegative rational half away from zero to a natural
number: the rounding used by the ECMAScript decimal renderers. -/
def roundHalf (q : ℚ) : ℕ := qfloorNat (q + 1 / 2)

/-- The decimal exponent of a positive rational: the unique `e` with
`10 ^ e ≤ a < 10 ^ (e + 1)`, computed from the digit lengths of the
numerator and denominator followed by a one-step correction. -/
def decExp (a : ℚ) : ℤ :=
  let e0 : ℤ := (digitLen a.num.natAbs : ℤ) - (digitLen a.den : ℤ)
  if a < zpow10 e0 then e0 - 1 else e0

/-- Layout of an exponential rendering for a mantissa `m` (scaled to
six fractional digits) and an exponent `e2`: sign, one leading mantissa
digit, a point, exactly six fractional mantissa digits, then `e`, an
explicit exponent sign, and the decimal exponent. -/
def expRender (q : ℚ) (m : ℕ) (e2 : ℤ) : List Char :=
  (if q < 0 then ['-'] else []) ++ natStr (m / 10 ^ 6) ++
    '.' :: padLeft 6 (m % 10 ^ 6) ++
    'e' :: (if e2 < 0 then '-' else '+') :: natStr e2.natAbs

/-- The six-fractional-digit mantissa of `q` scaled to an integer,
rounded half away from zero. -/
def mantissa6 (q : ℚ) : ℕ :=
  roundHalf (qabs q * zpow10 (6 - decExp (qabs q)))

/-- Model of `n.toExponential(6)`: rounding the magnitude to a
seven-digit scaled mantissa, with the carry into an eighth digit
(mantissa reaching 10) folded into the exponent. -/
def toExponential6 (q : ℚ) : List Char :=
  if q = 0 then ('0' :: '.' :: List.replicate 6 '0') ++ ['e', '+', '0']
  else
    expRender q
      (if 10 ^ 7 ≤ mantissa6 q then mantissa6 q / 10 else mantissa6 q)
      (if 10 ^ 7 ≤ mantissa6 q then decExp (qabs q) + 1 else decExp (qabs q))

/-- Layout of a fixed rendering for a total numerator `total` scaled to
ten fractional digits: sign, comma-grouped integer part, and the
fractional digits with trailing zeros trimmed (nothing when they are
all zero). -/
def fixedRender (q : ℚ) (total : ℕ) : List Char :=
  (if q < 0 then ['-'] else []) ++ group3 (natStr (total / 10 ^ 10)) ++
    (if total % 10 ^ 10 = 0 then []
     else '.' :: dropTrailingZeros (padLeft 10 (total % 10 ^ 10)))

/-- Model of `n.toLocaleString(undefined, maximumFractionDigits 10)` in
the default en-US locale: fixed decimal notation, at most ten fractional
digits (rounded half away from zero, trailing zeros trimmed), and comma
digit grouping of the integer part. -/
def toLocaleString10 (q : ℚ) : List Char :=
  fixedRender q (roundHalf (qabs q * pow10 10))

/-- The finite-value branch of `formatNumber` (after the negative-zero
normalisation): the two-tier choice between exponential and fixed
rendering, with the thresholds of the source
(`abs >= 1e12 || (abs !== 0 && abs < 1e-6)`). -/
def formatFin (q : ℚ) : List Char :=
  if pow10 12 ≤ qabs q ∨ (qabs q ≠ 0 ∧ qabs q < 1 / pow10 6) then toExponential6 q
  else toLocaleString10 q

/-- `formatNumber` of Calculator.tsx (lines 50 to 60): Error for
non-finite input, negative zero normalised to zero, then the two-tier
rendering of `formatFin`. -/
def formatNumber : JSNum → List Char
  | JSNum.nan => "Error".data
  | JSNum.inf _ => "Error".data
  | JSNum.negZero => formatFin 0
  | JSNum.fin q => formatFin q

/-- Numeric value of a list of decimal digit characters. -/
def digitsVal (l : List Char) : ℕ :=
  l.foldl (fun a c => 10 * a + (c.toNat - 48)) 0

/-- Model of JavaScript `parseFloat` restricted to the decimal literals
(optional sign, digits, optional point and digits, optional exponent)
that the calculator can display; `parseFloat` reads the longest valid
prefix and is NaN when no digit is found (for instance on "Error").
A parse of "-0" or "-0.0" yields negative zero, as in JavaScript. -/
def parseFloatM (cs : List Char) : JSNum :=
  let sn : Bool × List Char :=
    match cs with
    | '-' :: r => (true, r)
    | '+' :: r => (false, r)
    | r => (false, r)
  let neg := sn.1
  let ip := sn.2.takeWhile Char.isDigit
  let cs2 := sn.2.dropWhile Char.isDigit
  let fp : List Char × List Char :=
    match cs2 with
    | '.' :: r => (r.takeWhile Char.isDigit, r.dropWhile Char.isDigit)
    | r => ([], r)
  if ip = [] ∧ fp.1 = [] then JSNum.nan
  else
    let ex : ℤ :=
      match fp.2 with
      | 'e' :: '-' :: ds | 'E' :: '-' :: ds => -(digitsVal (ds.takeWhile Char.isDigit) : ℤ)
      | 'e' :: '+' :: ds | 'E' :: '+' :: ds => (digitsVal (ds.takeWhile Char.isDigit) : ℤ)
      | 'e' :: ds | 'E' :: ds => (digitsVal (ds.takeWhile Char.isDigit) : ℤ)
      | _ => 0
    let mag : ℚ :=
      ((digitsVal ip : ℚ) + (digitsVal fp.1 : ℚ) / pow10 fp.1.length) * zpow10 ex
    if neg then (if mag = 0 then JSNum.negZero else JSNum.fin (-mag))
    else JSNum.fin mag

/-- Fuel-driven core of `stripFactor`: returns `(k, m)` with
`n = p ^ k * m` and `p` not dividing `m` (given enough fuel). Used to
test whether a rational has a terminating decimal expansion. -/
def stripFactorFuel (p : ℕ) : ℕ → ℕ → ℕ × ℕ
  | 0, n => (0, n)
  | fuel + 1, n =>
    if 2 ≤ p ∧ n ≠ 0 ∧ n % p = 0 then
      let pr := stripFactorFuel p fuel (n / p)
      (pr.1 + 1, pr.2)
    else (0, n)

/-- Largest power of `p` dividing `n`, with the fuel set to `n` itself
(division by `p ≥ 2` strictly shrinks a positive number, so the fuel
suffices). -/
def stripFactor (p n : ℕ) : ℕ × ℕ := stripFactorFuel p n n

/-- Model of the ECMAScript number-to-string conversion `String(-)` for
the values the calculator feeds it (terminating decimals): shortest
digits, fixed notation while the decimal point position lies in
(-6, 21], exponential notation `d.dddde+k` outside; a rational without
a terminating expansion (never produced by the calculator) falls back
to twenty fixed fractional digits. -/
def jsToString (x : JSNum) : List Char :=
  match x with
  | JSNum.nan => "NaN".data
  | JSNum.inf b => if b then "-Infinity".data else "Infinity".data
  | JSNum.negZero => ['0']
  | JSNum.fin q =>
    if q = 0 then ['0']
    else
      let a := qabs q
      let k2 := stripFactor 2 a.den
      let k5 := stripFactor 5 k2.2
      let sign : List Char := if q < 0 then ['-'] else []
      if k5.2 ≠ 1 then
        sign ++ natStr (qfloorNat a) ++
          '.' :: dropTrailingZeros (padLeft 20 (roundHalf (a * pow10 20) % 10 ^ 20))
      else
        let f := max k2.1 k5.1
        let D := (a * pow10 f).num.toNat
        let td := stripFactor 10 D
        let ds := natStr td.2
        let k := ds.length
        let n : ℤ := (k : ℤ) + td.1 - f
        if 0 < n ∧ n ≤ 21 then
          (if (k : ℤ) ≤ n then sign ++ ds ++ List.replicate (n - k).toNat '0'
           else sign ++ ds.take n.toNat ++ '.' :: ds.drop n.toNat)
        else if -6 < n ∧ n ≤ 0 then
          sign ++ '0' :: '.' :: List.replicate (-n).toNat '0' ++ ds
        else
          sign ++ ds.take 1 ++
            (if 1 < k then '.' :: ds.drop 1 else []) ++
            'e' :: (if n - 1 < 0 then '-' else '+') :: natStr (n - 1).natAbs

/-!
The session state machine of the Calculator component: display buffer,
pending token sequence and just-evaluated flag, with the editing
operations. The React `useState` setters of the source are modelled as
pure state transformers over `Session`.
-/

/-- The session: display buffer, pending tokens, just-evaluated flag. -/
structure Session where
  display : List Char
  tokens : List Token
  justEvaluated : Bool
deriving DecidableEq

/-- The initial session of the component:
display "0", no tokens, flag clear. -/
def initSession : Session := ⟨['0'], [], false⟩

/-- `inputDigit` (lines 75 to 85): after an evaluation start a fresh
buffer and clear the flag; a lone "0" is replaced, "-0" keeps its sign;
otherwise the digit is appended. -/
def inputDigit (d : Char) (s : Session) : Session :=
  if s.justEvaluated then ⟨[d], s.tokens, false⟩
  else if s.display = ['0'] then ⟨[d], s.tokens, s.justEvaluated⟩
  else if s.display = ['-', '0'] then ⟨['-', d], s.tokens, s.justEvaluated⟩
  else ⟨s.display ++ [d], s.tokens, s.justEvaluated⟩

/-- `inputDecimal` (lines 87 to 96): after an evaluation start the fresh
buffer "0." and clear the flag; otherwise append a point only when the
buffer has none yet. -/
def inputDecimal (s : Session) : Session :=
  if s.justEvaluated then ⟨['0', '.'], s.tokens, false⟩
  else if s.display.contains '.' then s
  else ⟨s.display ++ ['.'], s.tokens, s.justEvaluated⟩

/-- `clearAll` (lines 98 to 102): reset everything. -/
def clearAll : Session → Session := fun _ => ⟨['0'], [], false⟩

/-- `backspace` (lines 104 to 113): after an evaluation reset the buffer
to "0" and clear the flag; otherwise drop the last character, resetting
to "0" when one character or just a minus sign would remain. -/
def backspace (s : Session) : Session :=
  if s.justEvaluated then ⟨['0'], s.tokens, false⟩
  else
    let nx := if 1 < s.display.length then s.display.dropLast else ['0']
    ⟨if nx = ['-'] then ['0'] else nx, s.tokens, s.justEvaluated⟩

/-- `toggleSign` (lines 115 to 121): strip a leading minus
(`startsWith` is a first-character test), leave "0" alone, otherwise
prepend a minus. -/
def toggleSign (s : Session) : Session :=
  if s.display.take 1 = ['-'] then ⟨s.display.drop 1, s.tokens, s.justEvaluated⟩
  else if s.display = ['0'] then s
  else ⟨'-' :: s.display, s.tokens, s.justEvaluated⟩

/-- `percent` (lines 123 to 129): parse the buffer; on a valid parse
replace the buffer with `String(v / 100)`, otherwise do nothing. -/
def percent (s : Session) : Session :=
  let v := parseFloatM s.display
  if v = JSNum.nan then s
  else ⟨jsToString (jsDiv v (JSNum.fin 100)), s.tokens, s.justEvaluated⟩

/-- Whether the last pending token is an operator
(`next[next.length - 1].type === 'op'` on a nonempty array). -/
def lastIsOp (l : List Token) : Bool :=
  match l.getLast? with
  | some (Token.op _) => true
  | _ => false

/-- `inputOperator` (lines 131 to 147): when the pending sequence ends
in an operator, replace that operator and leave buffer and flag alone;
otherwise append the parsed buffer (when it parses) and the operator,
reset the buffer to "0" and clear the flag. -/
def inputOperator (o : Op) (s : Session) : Session :=
  if lastIsOp s.tokens then
    ⟨s.display, s.tokens.dropLast ++ [Token.op o], s.justEvaluated⟩
  else
    let v := parseFloatM s.display
    let base := if v = JSNum.nan then s.tokens else s.tokens ++ [Token.num v]
    ⟨['0'], base ++ [Token.op o], false⟩

/-- `evaluate` (lines 149 to 167): append the parsed buffer when it
parses, drop a dangling trailing operator, and on an empty sequence just
set the flag; otherwise run the converter and the evaluator, display the
formatted result, set the flag, and clear the pending sequence. -/
def evaluate (s : Session) : Session :=
  let v := parseFloatM s.display
  let seq0 := if v = JSNum.nan then s.tokens else s.tokens ++ [Token.num v]
  let seq1 := if lastIsOp seq0 then seq0.dropLast else seq0
  if seq1 = [] then ⟨s.display, [], true⟩
  else ⟨formatNumber (evalRPN (toRPN seq1)), [], true⟩

/-- One user action of section 4.4. -/
inductive Act where
  | digit (d : Char)
  | dec
  | back
  | sgn
  | pct
  | op (o : Op)
  | eval
  | clear
deriving DecidableEq

/-- Apply one user action to the session. -/
def applyAct : Act → Session → Session
  | Act.digit d, s => inputDigit d s
  | Act.dec, s => inputDecimal s
  | Act.back, s => backspace s
  | Act.sgn, s => toggleSign s
  | Act.pct, s => percent s
  | Act.op o, s => inputOperator o s
  | Act.eval, s => evaluate s
  | Act.clear, s => clearAll s

/-- Run a list of user actions, left to right. -/
def run (acts : List Act) (s : Session) : Session :=
  acts.foldl (fun t a => applyAct a t) s

/-- A digit action must carry an actual digit; every other action is
always available. -/
def actOk : Act → Bool
  | Act.digit d => d.isDigit
  | _ => true

/-- The sessions reachable from the initial session by the editing
operations of section 4.4. -/
def Reach (s : Session) : Prop :=
  ∃ acts : List Act, acts.all actOk = true ∧ run acts initSession = s

/-- Validity of an action, excluding `evaluate` and `percent` (the two
operations that can write a formatted result into the buffer). -/
def nonEvalAct : Act → Bool
  | Act.eval => false
  | Act.pct => false
  | a => actOk a

/-- The sessions reachable from the initial session by the editing
operations other than `evaluate` and `percent`. -/
def ReachNE (s : Session) : Prop :=
  ∃ acts : List Act, acts.all nonEvalAct = true ∧ run acts initSession = s

/-!
Invariants of the pending token sequence (claim C8) and of the display
buffer (claim C3), proved by induction along action traces.
-/

/-- Kind of a token: true for an operator token. -/
def kindOf : Token → Bool
  | Token.num _ => false
  | Token.op _ => true

/-- The sequence is a concatenation of (number, operator) pairs. -/
def pairsNumOp : List Token → Bool
  | [] => true
  | Token.num _ :: Token.op _ :: r => pairsNumOp r
  | _ => false

/-- The sequence is a single lone operator token (the shape produced by
operator entry on an unparseable buffer with no pending tokens). -/
def isLoneOp : List Token → Bool
  | [Token.op _] => true
  | _ => false

/-- Invariant of the pending token sequence under all editing
operations. -/
def tokInv (l : List Token) : Bool := pairsNumOp l || isLoneOp l

/-- Whether the sequence ends in two tokens of the same kind (two
numbers or two operators). -/
def lastTwoSameKind (l : List Token) : Bool :=
  match l.reverse with
  | a :: b :: _ => kindOf a == kindOf b
  | _ => false

/-- The formal content of the claim-C8 wording about `inputOperator`:
the operation either appends a (number, operator) pair or replaces a
trailing lone operator. -/
def opAppendsPairOrReplaces (o : Op) (s : Session) : Prop :=
  (∃ v, (inputOperator o s).tokens = s.tokens ++ [Token.num v, Token.op o])
  ∨ (lastIsOp s.tokens = true
      ∧ (inputOperator o s).tokens = s.tokens.dropLast ++ [Token.op o])

/-- The display without its optional single leading minus sign. -/
def stripNeg (cs : List Char) : List Char :=
  match cs with
  | [] => []
  | c :: r => if c = '-' then r else c :: r

/-- A character the claim-C3 invariant allows after the optional minus
sign: a digit or the decimal point. -/
def dotOrDigit (c : Char) : Bool := c.isDigit || c == '.'

/-- The display-buffer invariant claimed in C3: after an optional
leading minus sign there are only digits and decimal points, at most
one decimal point, and no further minus sign. -/
def GoodBuf (cs : List Char) : Prop :=
  (∀ c ∈ stripNeg cs, dotOrDigit c = true) ∧ (stripNeg cs).count '.' ≤ 1

/-- The strengthened induction invariant: the buffer also has at least
one character after the optional minus sign. -/
def GoodBufS (cs : List Char) : Prop := GoodBuf cs ∧ stripNeg cs ≠ []

/-!
Shape facts about the decimal renderers, for claim C7: an exponential
rendering carries exactly six mantissa digits after the point, and a
fixed rendering carries at most ten fractional digits.
-/

/-- The characters after the (first) decimal point of a rendered
string; empty when there is no point. -/
def afterDot (cs : List Char) : List Char :=
  (cs.dropWhile (fun c => !(c == '.'))).drop 1

/-- The exponential-notation check of claim C7: exactly six digits
between the decimal point and the exponent marker. -/
def sixMantissaDigits (cs : List Char) : Bool :=
  ((afterDot cs).takeWhile (fun c => !(c == 'e'))).length == 6
    && ((afterDot cs).takeWhile (fun c => !(c == 'e'))).all Char.isDigit

/-- The fixed-notation check of claim C7: at most ten digits after the
decimal point, and nothing but digits there. -/
def fracDigitsAtMost10 (cs : List Char) : Bool :=
  decide ((afterDot cs).length ≤ 10) && (afterDot cs).all Char.isDigit

/-!
Theorems. Claims C1, C4, C5, C10 concern the converter and the
evaluator; C2, C3, C6, C8, C9 concern the session state machine; C7
concerns the formatter.
-/

theorem evalRPNAux_eq_runStack (ts : List Token) : ∀ st : List JSNum,
    evalRPNAux ts st =
      (match runStack ts st with
       | none => JSNum.nan
       | some st2 => st2.getLast?.getD JSNum.nan) := by
  induction ts with
  | nil => intro st; rfl
  | cons t ts ih =>
    intro st
    cases t with
    | num v => simpa [evalRPNAux, runStack] using ih (v :: st)
    | op o =>
      match st with
      | [] => rfl
      | [x] => rfl
      | b :: a :: rest => simpa [evalRPNAux, runStack] using ih (applyOp o a b :: rest)

/-- C1 (counterexample): on the postfix sequence `[1, 2]` two values
remain on the stack, yet `evalRPN` returns the first value 1, not the
not-a-number sentinel that the claim announces for that case. -/
theorem claim1_counterexample :
    runStack [Token.num (JSNum.fin 1), Token.num (JSNum.fin 2)] []
        = some [JSNum.fin 2, JSNum.fin 1]
    ∧ evalRPN [Token.num (JSNum.fin 1), Token.num (JSNum.fin 2)] = JSNum.fin 1
    ∧ JSNum.fin 1 ≠ JSNum.nan := by
  refine ⟨rfl, rfl, ?_⟩
  decide

/-- C1 (amended): `evalRPN` maintains a value stack (`runStack`); an
operator finding fewer than two stack values aborts with NaN, an empty
final stack gives NaN, a final stack with exactly one value gives that
value, but a final stack with several values gives its first-pushed
(bottom) value rather than NaN. -/
theorem claim1_amended (rpn : List Token) :
    (runStack rpn [] = none → evalRPN rpn = JSNum.nan)
    ∧ (runStack rpn [] = some [] → evalRPN rpn = JSNum.nan)
    ∧ (∀ v, runStack rpn [] = some [v] → evalRPN rpn = v)
    ∧ (∀ st, runStack rpn [] = some st →
        evalRPN rpn = st.getLast?.getD JSNum.nan) := by
  have key := evalRPNAux_eq_runStack rpn []
  refine ⟨?_, ?_, ?_, ?_⟩
  · intro h; simpa [evalRPN, h] using key
  · intro h; simpa [evalRPN, h] using key
  · intro v h; simpa [evalRPN, h] using key
  · intro st h; simpa [evalRPN, h] using key

/-- C1 (witness): the postfix sequence `[3, 4, +]` leaves exactly the
value 7 on the stack and `evalRPN` returns it. -/
theorem claim1_witness :
    runStack [Token.num (JSNum.fin 3), Token.num (JSNum.fin 4), Token.op Op.add] []
        = some [JSNum.fin 7]
    ∧ evalRPN [Token.num (JSNum.fin 3), Token.num (JSNum.fin 4), Token.op Op.add]
        = JSNum.fin 7 := by
  refine ⟨by with_unfolding_all decide, ?_⟩
  exact (claim1_amended _).2.2.1 _ (by with_unfolding_all decide)

theorem popWhileGE_eq (o : Op) (l : List Op) :
    popWhileGE o l =
      (l.takeWhile (fun x => decide (prec o ≤ prec x)),
       l.dropWhile (fun x => decide (prec o ≤ prec x))) := by
  induction l with
  | nil => rfl
  | cons t rest ih =>
    by_cases h : prec o ≤ prec t
    · simp [popWhileGE, h, List.takeWhile_cons, List.dropWhile_cons, ih]
    · simp [popWhileGE, h, List.takeWhile_cons, List.dropWhile_cons]

theorem toRPNAux_eq_shuntSpec (ts : List Token) : ∀ st,
    toRPNAux ts st = shuntSpec ts st := by
  induction ts with
  | nil => intro st; rfl
  | cons t ts ih =>
    intro st
    cases t with
    | num v => simp [toRPNAux, shuntSpec, ih]
    | op o => simp [toRPNAux, shuntSpec, popWhileGE_eq, ih]

/-- C4: `toRPN` coincides on every input with the shunting-yard
conversion written from the spec wording (numbers to the output in
order, pop to the output every stack-top operator of greater or equal
precedence before pushing the incoming operator, pop the remaining
stack at the end), with the fixed precedence table
add 1, subtract 1, multiply 2, divide 2. -/
theorem claim4_shunting (ts : List Token) :
    toRPN ts = toPostfixSpec ts
    ∧ prec Op.add = 1 ∧ prec Op.sub = 1 ∧ prec Op.mul = 2 ∧ prec Op.div = 2 :=
  ⟨toRPNAux_eq_shuntSpec ts [], rfl, rfl, rfl, rfl⟩

/-- C5: the divide case of the evaluator returns NaN exactly when the
right operand is strictly equal to zero and the exact quotient
otherwise; the infix sequence 5 divided by 0 evaluates to NaN, whose
formatting (like that of every non-finite number) is the literal string
Error. Every operation of the model is a total function: no exception
channel exists. -/
theorem claim5_div_by_zero :
    (∀ a b : JSNum, evalRPN [Token.num a, Token.num b, Token.op Op.div]
        = if strictEq b (JSNum.fin 0) then JSNum.nan else jsDiv a b)
    ∧ evalRPN (toRPN [Token.num (JSNum.fin 5), Token.op Op.div, Token.num (JSNum.fin 0)])
        = JSNum.nan
    ∧ formatNumber JSNum.nan = "Error".data
    ∧ (∀ n, isFiniteJS n = false → formatNumber n = "Error".data) := by
  refine ⟨?_, by with_unfolding_all decide, rfl, ?_⟩
  · intro a b
    simp [evalRPN, evalRPNAux, applyOp]
  · intro n h
    cases n with
    | nan => rfl
    | inf s => rfl
    | negZero => simp [isFiniteJS] at h
    | fin q => simp [isFiniteJS] at h

/-- C5 (witness): minus infinity is not finite and formats as Error;
division with right operand 2 is unguarded and exact. -/
theorem claim5_witness :
    isFiniteJS (JSNum.inf true) = false
    ∧ formatNumber (JSNum.inf true) = "Error".data
    ∧ evalRPN [Token.num (JSNum.fin 1), Token.num (JSNum.fin 2), Token.op Op.div]
        = jsDiv (JSNum.fin 1) (JSNum.fin 2) := by
  refine ⟨rfl, claim5_div_by_zero.2.2.2 _ rfl, ?_⟩
  have h := claim5_div_by_zero.1 (JSNum.fin 1) (JSNum.fin 2)
  simpa using h

/-- C10: the division-by-zero guard `b === 0` also fires on negative
zero, so a division whose right operand is negative zero evaluates to
NaN (not an infinity), identically to a division by positive zero, for
every left operand, both at the postfix level and through the
converter. -/
theorem claim10_negzero_divisor :
    (∀ a : JSNum, evalRPN [Token.num a, Token.num JSNum.negZero, Token.op Op.div]
        = JSNum.nan)
    ∧ (∀ a : JSNum,
        evalRPN (toRPN [Token.num a, Token.op Op.div, Token.num JSNum.negZero])
          = JSNum.nan)
    ∧ strictEq JSNum.negZero (JSNum.fin 0) = true
    ∧ (∀ a : JSNum, evalRPN [Token.num a, Token.num JSNum.negZero, Token.op Op.div]
        = evalRPN [Token.num a, Token.num (JSNum.fin 0), Token.op Op.div]) := by
  refine ⟨?_, ?_, rfl, ?_⟩
  · intro a; rfl
  · intro a; rfl
  · intro a; rfl

/-- C2 (counterexample): the state reached by pressing equals on the
fresh calculator has the just-evaluated flag set, and entering an
operator there CLEARS the flag (the append branch of `inputOperator`
executes `setJustEvaluated(false)`), contradicting the claim that
operator entry never resets it. -/
theorem claim2_counterexample :
    Reach ⟨['0'], [], true⟩
    ∧ (⟨['0'], [], true⟩ : Session).justEvaluated = true
    ∧ (inputOperator Op.add ⟨['0'], [], true⟩).justEvaluated = false := by
  refine ⟨⟨[Act.eval], rfl, ?_⟩, rfl, by with_unfolding_all decide⟩
  with_unfolding_all decide

/-- C2 (amended): a completed evaluation sets the just-evaluated flag
and the next digit or decimal entry clears it, as claimed; but operator
entry also clears it whenever the pending sequence does not end in an
operator (the append branch), and leaves it unchanged only in the
replace branch. -/
theorem claim2_amended (s : Session) (o : Op) :
    (lastIsOp s.tokens = true →
      (inputOperator o s).justEvaluated = s.justEvaluated)
    ∧ (lastIsOp s.tokens = false → (inputOperator o s).justEvaluated = false)
    ∧ (∀ d, s.justEvaluated = true → (inputDigit d s).justEvaluated = false)
    ∧ (s.justEvaluated = true → (inputDecimal s).justEvaluated = false)
    ∧ (evaluate s).justEvaluated = true := by
  refine ⟨?_, ?_, ?_, ?_, ?_⟩
  · intro h; simp [inputOperator, h]
  · intro h; simp [inputOperator, h]
  · intro d h; simp [inputDigit, h]
  · intro h; simp [inputDecimal, h]
  · simp only [evaluate]
    repeat' split
    all_goals rfl

/-- C2 (witness): concrete instances of both operator branches, of the
digit reset and of the evaluation setting the flag. -/
theorem claim2_witness :
    (inputOperator Op.mul ⟨['0'], [Token.num (JSNum.fin 5), Token.op Op.add],
        false⟩).justEvaluated = false
    ∧ (inputOperator Op.add ⟨['0'], [], true⟩).justEvaluated = false
    ∧ (inputDigit '7' ⟨['0'], [], true⟩).justEvaluated = false
    ∧ (evaluate initSession).justEvaluated = true := by
  refine ⟨?_, ?_, ?_, ?_⟩
  · have h := (claim2_amended ⟨['0'], [Token.num (JSNum.fin 5), Token.op Op.add],
      false⟩ Op.mul).1 rfl
    simpa using h
  · exact (claim2_amended ⟨['0'], [], true⟩ Op.add).2.1 rfl
  · exact (claim2_amended ⟨['0'], [], true⟩ Op.add).2.2.1 '7' rfl
  · exact (claim2_amended initSession Op.add).2.2.2.2

/-- C6: when the pending sequence ends in an operator, `inputOperator`
only replaces that trailing operator, leaving the display buffer, the
numeric tokens (the sequence without its last element) and the flag
untouched; consequently the key trace 5, plus, times, 3, equals ends in
exactly the same session as 5, times, 3, equals, displaying 15. -/
theorem claim6_replace (s : Session) (o : Op)
    (h : lastIsOp s.tokens = true) :
    inputOperator o s
      = ⟨s.display, s.tokens.dropLast ++ [Token.op o], s.justEvaluated⟩
    ∧ run [Act.digit '5', Act.op Op.add, Act.op Op.mul, Act.digit '3', Act.eval]
          initSession
        = run [Act.digit '5', Act.op Op.mul, Act.digit '3', Act.eval] initSession
    ∧ (run [Act.digit '5', Act.op Op.add, Act.op Op.mul, Act.digit '3', Act.eval]
          initSession).display = "15".data := by
  refine ⟨by simp [inputOperator, h], ?_, ?_⟩
  · with_unfolding_all decide
  · with_unfolding_all decide

/-- C6 (witness): replacing a trailing plus by times keeps the buffer,
the numeric token and the flag. -/
theorem claim6_witness :
    lastIsOp [Token.num (JSNum.fin 5), Token.op Op.add] = true
    ∧ inputOperator Op.mul
        ⟨['0'], [Token.num (JSNum.fin 5), Token.op Op.add], false⟩
      = ⟨['0'], [Token.num (JSNum.fin 5), Token.op Op.mul], false⟩ := by
  refine ⟨rfl, ?_⟩
  have h := (claim6_replace
    ⟨['0'], [Token.num (JSNum.fin 5), Token.op Op.add], false⟩ Op.mul rfl).1
  simpa using h

/-- C9 (counterexample): the state displaying "0.5" just after an
evaluation is reachable; its buffer contains a decimal point, and yet
`inputDecimal` is not a no-op there: it starts the fresh buffer "0.",
because the just-evaluated branch runs before the decimal-point test. -/
theorem claim9_counterexample :
    Reach ⟨"0.5".data, [], true⟩
    ∧ ("0.5".data.contains '.') = true
    ∧ inputDecimal ⟨"0.5".data, [], true⟩ = ⟨"0.".data, [], false⟩
    ∧ inputDecimal ⟨"0.5".data, [], true⟩ ≠ ⟨"0.5".data, [], true⟩ := by
  refine ⟨⟨[Act.digit '1', Act.op Op.div, Act.digit '2', Act.eval], rfl, ?_⟩,
    rfl, by with_unfolding_all decide, by with_unfolding_all decide⟩
  with_unfolding_all decide

theorem contains_append_dot (l : List Char) : (l ++ ['.']).contains '.' = true := by
  simp

/-- C9 (amended): when the just-evaluated flag is clear, `inputDecimal`
appends a point exactly when the buffer has none yet and is a no-op
otherwise; when the flag is set it starts the fresh buffer "0." instead.
The operation is idempotent as a whole on every session, and pressing
the decimal point twice on the fresh calculator yields "0.", not "0..". -/
theorem claim9_amended (s : Session) :
    (s.justEvaluated = false → s.display.contains '.' = true →
      inputDecimal s = s)
    ∧ (s.justEvaluated = false → s.display.contains '.' = false →
      inputDecimal s = ⟨s.display ++ ['.'], s.tokens, false⟩)
    ∧ inputDecimal (inputDecimal s) = inputDecimal s
    ∧ inputDecimal (inputDecimal initSession) = ⟨"0.".data, [], false⟩ := by
  refine ⟨?_, ?_, ?_, by with_unfolding_all decide⟩
  · intro h hc
    have hm : '.' ∈ s.display := by simpa using hc
    simp [inputDecimal, h, hm]
  · intro h hc
    have hm : '.' ∉ s.display := by simpa using hc
    simp [inputDecimal, h, hm]
  · by_cases h : s.justEvaluated
    · have h1 : inputDecimal s = ⟨['0', '.'], s.tokens, false⟩ := by
        simp [inputDecimal, h]
      rw [h1]
      have hm : '.' ∈ (['0', '.'] : List Char) := by simp
      simp [inputDecimal, hm]
    · by_cases hc : '.' ∈ s.display
      · have h1 : inputDecimal s = s := by simp [inputDecimal, h, hc]
        rw [h1]
        exact h1
      · have h1 : inputDecimal s
            = ⟨s.display ++ ['.'], s.tokens, s.justEvaluated⟩ := by
          simp [inputDecimal, h, hc]
        rw [h1]
        have hm : '.' ∈ s.display ++ ['.'] := by simp
        simp [inputDecimal, h, hm]

/-- C9 (witness): the no-op case on a buffer holding "0.5" with the
flag clear, and the append case on the initial buffer. -/
theorem claim9_witness :
    inputDecimal ⟨"0.5".data, [], false⟩ = ⟨"0.5".data, [], false⟩
    ∧ inputDecimal initSession = ⟨"0.".data, [], false⟩ := by
  refine ⟨(claim9_amended ⟨"0.5".data, [], false⟩).1 rfl rfl, ?_⟩
  have h := (claim9_amended initSession).2.1 rfl rfl
  simpa using h


theorem run_inv (ok : Act → Bool) (P : Session → Prop)
    (hstep : ∀ a t, ok a = true → P t → P (applyAct a t)) :
    ∀ acts t, acts.all ok = true → P t → P (run acts t) := by
  intro acts
  induction acts with
  | nil => intro t _ ht; simpa [run] using ht
  | cons a rest ih =>
    intro t hall ht
    rw [List.all_cons, Bool.and_eq_true] at hall
    have hr : run (a :: rest) t = run rest (applyAct a t) := rfl
    rw [hr]
    exact ih _ hall.2 (hstep a t hall.1 ht)

theorem inputDigit_tokens (d : Char) (s : Session) :
    (inputDigit d s).tokens = s.tokens := by
  simp only [inputDigit]
  repeat' split
  all_goals rfl

theorem inputDecimal_tokens (s : Session) :
    (inputDecimal s).tokens = s.tokens := by
  simp only [inputDecimal]
  repeat' split
  all_goals rfl

theorem backspace_tokens (s : Session) :
    (backspace s).tokens = s.tokens := by
  simp only [backspace]
  repeat' split
  all_goals rfl

theorem toggleSign_tokens (s : Session) :
    (toggleSign s).tokens = s.tokens := by
  simp only [toggleSign]
  repeat' split
  all_goals rfl

theorem percent_tokens (s : Session) :
    (percent s).tokens = s.tokens := by
  simp only [percent]
  repeat' split
  all_goals rfl

theorem evaluate_tokens (s : Session) : (evaluate s).tokens = [] := by
  simp only [evaluate]
  repeat' split
  all_goals rfl

theorem lastIsOp_cons_cons (a b : Token) (l : List Token) :
    lastIsOp (a :: b :: l) = lastIsOp (b :: l) := by
  unfold lastIsOp
  rw [List.getLast?_cons_cons]

theorem pairs_lastIsOp : ∀ l : List Token, pairsNumOp l = true → l ≠ [] →
    lastIsOp l = true := by
  intro l
  induction l using pairsNumOp.induct with
  | case1 => intro _ hne; exact absurd rfl hne
  | case2 v o r ih =>
    intro hp _
    rw [pairsNumOp] at hp
    cases r with
    | nil => rfl
    | cons x r2 =>
      rw [lastIsOp_cons_cons, lastIsOp_cons_cons]
      exact ih hp (by simp)
  | case3 l h1 h2 =>
    intro hp _
    rw [pairsNumOp] at hp
    · exact absurd hp (by simp)
    · exact h1
    · exact h2

theorem pairs_ends_num (l : List Token) (h1 : pairsNumOp l = true)
    (h2 : lastIsOp l = false) : l = [] := by
  by_contra hne
  rw [pairs_lastIsOp l h1 hne] at h2
  exact absurd h2 (by simp)

theorem pairs_dropLast_op : ∀ l : List Token, pairsNumOp l = true → l ≠ [] →
    ∀ o : Op, pairsNumOp (l.dropLast ++ [Token.op o]) = true := by
  intro l
  induction l using pairsNumOp.induct with
  | case1 => intro _ hne; exact absurd rfl hne
  | case2 v o0 r ih =>
    intro hp _ o
    rw [pairsNumOp] at hp
    cases r with
    | nil => rfl
    | cons x r2 =>
      rw [List.dropLast_cons₂, List.dropLast_cons₂, List.cons_append,
        List.cons_append, pairsNumOp]
      exact ih hp (by simp) o
  | case3 l h1 h2 =>
    intro hp _
    rw [pairsNumOp] at hp
    · exact absurd hp (by simp)
    · exact h1
    · exact h2

theorem isLoneOp_eq (l : List Token) (h : isLoneOp l = true) :
    ∃ o, l = [Token.op o] := by
  cases l with
  | nil => simp [isLoneOp] at h
  | cons a r =>
    cases a with
    | num v =>
      cases r with
      | nil => simp [isLoneOp] at h
      | cons b r2 => simp [isLoneOp] at h
    | op o =>
      cases r with
      | nil => exact ⟨o, rfl⟩
      | cons b r2 => simp [isLoneOp] at h

theorem inputOperator_tokInv (o : Op) (s : Session)
    (h : tokInv s.tokens = true) : tokInv (inputOperator o s).tokens = true := by
  have hcases : pairsNumOp s.tokens = true ∨ isLoneOp s.tokens = true := by
    simpa [tokInv] using h
  rcases hcases with hp | hlone
  · by_cases hl : lastIsOp s.tokens = true
    · have htok : (inputOperator o s).tokens = s.tokens.dropLast ++ [Token.op o] := by
        simp [inputOperator, hl]
      rw [htok]
      have hne : s.tokens ≠ [] := by
        intro hnil
        rw [hnil] at hl
        exact absurd hl (by simp [lastIsOp])
      simp [tokInv, pairs_dropLast_op s.tokens hp hne o]
    · have hnil : s.tokens = [] :=
        pairs_ends_num s.tokens hp (by simpa using hl)
      have htok : (inputOperator o s).tokens
          = (if parseFloatM s.display = JSNum.nan then s.tokens
             else s.tokens ++ [Token.num (parseFloatM s.display)])
            ++ [Token.op o] := by
        simp [inputOperator, hl]
      rw [htok, hnil]
      split
      · rfl
      · rfl
  · obtain ⟨x, hx⟩ := isLoneOp_eq s.tokens hlone
    have hl : lastIsOp s.tokens = true := by rw [hx]; rfl
    have htok : (inputOperator o s).tokens = s.tokens.dropLast ++ [Token.op o] := by
      simp [inputOperator, hl]
    rw [htok, hx]
    rfl

theorem pairs_reverse_shape : ∀ l : List Token, pairsNumOp l = true →
    l = [] ∨ ∃ o v r, l.reverse = Token.op o :: Token.num v :: r := by
  intro l
  induction l using pairsNumOp.induct with
  | case1 => intro _; exact Or.inl rfl
  | case2 v o r ih =>
    intro hp
    rw [pairsNumOp] at hp
    right
    rcases ih hp with hnil | ⟨o2, v2, r2, hr⟩
    · subst hnil
      exact ⟨o, v, [], rfl⟩
    · exact ⟨o2, v2, r2 ++ [Token.op o, Token.num v], by simp [hr]⟩
  | case3 l h1 h2 =>
    intro hp
    rw [pairsNumOp] at hp
    · exact absurd hp (by simp)
    · exact h1
    · exact h2

theorem tokInv_no_two (l : List Token) (h : tokInv l = true) :
    lastTwoSameKind l = false := by
  have hcases : pairsNumOp l = true ∨ isLoneOp l = true := by
    simpa [tokInv] using h
  rcases hcases with hp | hlone
  · rcases pairs_reverse_shape l hp with hnil | ⟨o, v, r, hr⟩
    · subst hnil; rfl
    · unfold lastTwoSameKind
      rw [hr]
      rfl
  · obtain ⟨x, hx⟩ := isLoneOp_eq l hlone
    subst hx
    rfl

theorem reach_tokInv (s : Session) (h : Reach s) : tokInv s.tokens = true := by
  obtain ⟨acts, hok, hrun⟩ := h
  subst hrun
  refine run_inv actOk (fun t => tokInv t.tokens = true) ?_ acts initSession hok rfl
  intro a t _ ht
  cases a with
  | digit d => rw [applyAct, inputDigit_tokens]; exact ht
  | dec => rw [applyAct, inputDecimal_tokens]; exact ht
  | back => rw [applyAct, backspace_tokens]; exact ht
  | sgn => rw [applyAct, toggleSign_tokens]; exact ht
  | pct => rw [applyAct, percent_tokens]; exact ht
  | op o => exact inputOperator_tokInv o t ht
  | eval => rw [applyAct, evaluate_tokens]; rfl
  | clear => rfl

/-- C8 (counterexample): after 5, divide, 0, equals the display shows
Error, which does not parse; entering an operator there appends a lone
operator token: the pending sequence becomes a single operator, which is
neither an appended (number, operator) pair nor the replacement of a
trailing operator, contradicting the either-or wording of the claim. -/
theorem claim8_counterexample :
    Reach ⟨"Error".data, [], true⟩
    ∧ (inputOperator Op.add ⟨"Error".data, [], true⟩).tokens = [Token.op Op.add]
    ∧ ¬ opAppendsPairOrReplaces Op.add ⟨"Error".data, [], true⟩ := by
  have htok : (inputOperator Op.add ⟨"Error".data, [], true⟩).tokens
      = [Token.op Op.add] := by
    with_unfolding_all decide
  refine ⟨⟨[Act.digit '5', Act.op Op.div, Act.digit '0', Act.eval], rfl, ?_⟩,
    htok, ?_⟩
  · with_unfolding_all decide
  · intro hcon
    rcases hcon with ⟨v, hv⟩ | ⟨hlast, _⟩
    · rw [htok] at hv
      simp at hv
    · simp [lastIsOp] at hlast

/-- C8 (amended): in every reachable session the pending sequence never
ends in two consecutive numeric tokens or two consecutive operator
tokens; `inputOperator` replaces a trailing lone operator, and otherwise
appends the parsed buffer followed by the operator - a (number,
operator) pair whenever the buffer parses, but a lone operator when it
does not (display showing Error); digit and decimal entry never touch
the pending sequence. -/
theorem claim8_amended (s : Session) (h : Reach s) :
    lastTwoSameKind s.tokens = false
    ∧ (∀ o, lastIsOp s.tokens = true →
        (inputOperator o s).tokens = s.tokens.dropLast ++ [Token.op o])
    ∧ (∀ o, lastIsOp s.tokens = false →
        (inputOperator o s).tokens
          = (if parseFloatM s.display = JSNum.nan then s.tokens
             else s.tokens ++ [Token.num (parseFloatM s.display)])
            ++ [Token.op o])
    ∧ (∀ d, (inputDigit d s).tokens = s.tokens)
    ∧ (inputDecimal s).tokens = s.tokens := by
  refine ⟨tokInv_no_two s.tokens (reach_tokInv s h), ?_, ?_,
    fun d => inputDigit_tokens d s, inputDecimal_tokens s⟩
  · intro o hl
    simp [inputOperator, hl]
  · intro o hl
    have hl2 : ¬ lastIsOp s.tokens = true := by simp [hl]
    simp [inputOperator, hl2]

/-- C8 (witness): the session after the keys 5 and plus is reachable and
its pending pair ends in the single operator, not in two tokens of the
same kind; replacing and appending behave as stated there. -/
theorem claim8_witness :
    lastTwoSameKind [Token.num (JSNum.fin 5), Token.op Op.add] = false
    ∧ (inputDigit '7'
        ⟨['0'], [Token.num (JSNum.fin 5), Token.op Op.add], false⟩).tokens
      = [Token.num (JSNum.fin 5), Token.op Op.add] := by
  have hreach : Reach ⟨['0'], [Token.num (JSNum.fin 5), Token.op Op.add], false⟩ := by
    refine ⟨[Act.digit '5', Act.op Op.add], rfl, ?_⟩
    with_unfolding_all decide
  have h := claim8_amended ⟨['0'], [Token.num (JSNum.fin 5), Token.op Op.add],
    false⟩ hreach
  exact ⟨h.1, h.2.2.2.1 '7'⟩


theorem goodBufS_zero : GoodBufS ['0'] := by
  refine ⟨⟨?_, ?_⟩, ?_⟩ <;> decide

theorem isDigit_ne_minus (c : Char) (h : c.isDigit = true) : ¬ c = '-' := by
  intro hc
  subst hc
  exact absurd h (by decide)

theorem isDigit_ne_dot (c : Char) (h : c.isDigit = true) : ¬ c = '.' := by
  intro hc
  subst hc
  exact absurd h (by decide)

theorem dotOrDigit_ne_minus (c : Char) (h : dotOrDigit c = true) : ¬ c = '-' := by
  intro hc
  subst hc
  exact absurd h (by decide)

theorem stripNeg_cons (c : Char) (r : List Char) :
    stripNeg (c :: r) = if c = '-' then r else c :: r := rfl

theorem stripNeg_append (cs l : List Char) (h : cs ≠ []) :
    stripNeg (cs ++ l) = stripNeg cs ++ l := by
  cases cs with
  | nil => exact absurd rfl h
  | cons c r =>
    rw [List.cons_append, stripNeg_cons, stripNeg_cons]
    by_cases hc : c = '-'
    · rw [if_pos hc, if_pos hc]
    · rw [if_neg hc, if_neg hc, List.cons_append]

theorem stripNeg_sublist (cs : List Char) : (stripNeg cs).Sublist cs := by
  cases cs with
  | nil => exact List.Sublist.refl []
  | cons c r =>
    rw [stripNeg_cons]
    by_cases hc : c = '-'
    · rw [if_pos hc]
      exact List.sublist_cons_self c r
    · rw [if_neg hc]

theorem goodBufS_single_digit (d : Char) (hd : d.isDigit = true) :
    GoodBufS [d] := by
  have h1 : ¬ d = '-' := isDigit_ne_minus d hd
  have h2 : (d == '.') = false := by
    simpa using isDigit_ne_dot d hd
  refine ⟨⟨?_, ?_⟩, ?_⟩
  · intro c hc
    rw [stripNeg_cons, if_neg h1] at hc
    simp at hc
    subst hc
    simp [dotOrDigit, hd]
  · rw [stripNeg_cons, if_neg h1]
    simp [List.count_cons, h2]
  · rw [stripNeg_cons, if_neg h1]
    simp

theorem goodBufS_append_digit (cs : List Char) (d : Char)
    (h : GoodBufS cs) (hd : d.isDigit = true) : GoodBufS (cs ++ [d]) := by
  have hcs : cs ≠ [] := by
    intro hnil
    rw [hnil] at h
    exact absurd rfl h.2
  have h2 : (d == '.') = false := by
    simpa using isDigit_ne_dot d hd
  rw [GoodBufS, GoodBuf, stripNeg_append cs [d] hcs]
  refine ⟨⟨?_, ?_⟩, by simp⟩
  · intro c hc
    rcases List.mem_append.mp hc with hin | hin
    · exact h.1.1 c hin
    · simp at hin
      subst hin
      simp [dotOrDigit, hd]
  · rw [List.count_append]
    have hz : List.count '.' [d] = 0 := by simp [List.count_cons, h2]
    have h1 := h.1.2
    omega

theorem goodBufS_append_dot (cs : List Char) (h : GoodBufS cs)
    (hdot : ¬ '.' ∈ cs) : GoodBufS (cs ++ ['.']) := by
  have hcs : cs ≠ [] := by
    intro hnil
    rw [hnil] at h
    exact absurd rfl h.2
  rw [GoodBufS, GoodBuf, stripNeg_append cs ['.'] hcs]
  refine ⟨⟨?_, ?_⟩, by simp⟩
  · intro c hc
    rcases List.mem_append.mp hc with hin | hin
    · exact h.1.1 c hin
    · simp at hin
      subst hin
      decide
  · rw [List.count_append]
    have hz : List.count '.' (stripNeg cs) = 0 := by
      rw [List.count_eq_zero]
      intro hmem
      exact hdot ((stripNeg_sublist cs).mem hmem)
    rw [hz]
    decide

theorem goodBufS_dropLast (cs : List Char) (h : GoodBufS cs)
    (hlen : 1 < cs.length) (hm : ¬ cs.dropLast = ['-']) :
    GoodBufS cs.dropLast := by
  cases cs with
  | nil => simp at hlen
  | cons c r =>
    cases r with
    | nil => simp at hlen
    | cons y r2 =>
      rw [List.dropLast_cons₂]
      by_cases hc : c = '-'
      · subst hc
        have hstrip : stripNeg ('-' :: y :: r2) = y :: r2 := by
          rw [stripNeg_cons, if_pos rfl]
        have hstrip2 : stripNeg ('-' :: (y :: r2).dropLast) = (y :: r2).dropLast := by
          rw [stripNeg_cons, if_pos rfl]
        have hsub : ((y :: r2).dropLast).Sublist (y :: r2) := List.dropLast_sublist _
        refine ⟨⟨?_, ?_⟩, ?_⟩
        · intro x hx
          rw [hstrip2] at hx
          exact h.1.1 x (by rw [hstrip]; exact hsub.mem hx)
        · rw [hstrip2]
          have h1 : List.count '.' (y :: r2) ≤ 1 := by
            have := h.1.2
            rw [hstrip] at this
            exact this
          exact le_trans (hsub.count_le '.') h1
        · rw [hstrip2]
          intro hnil
          rw [List.dropLast_cons₂] at hm
          rw [hnil] at hm
          exact hm rfl
      · have hstrip : stripNeg (c :: y :: r2) = c :: y :: r2 := by
          rw [stripNeg_cons, if_neg hc]
        have hstrip2 : stripNeg (c :: (y :: r2).dropLast) = c :: (y :: r2).dropLast := by
          rw [stripNeg_cons, if_neg hc]
        have hsub : (c :: (y :: r2).dropLast).Sublist (c :: y :: r2) :=
          List.Sublist.cons₂ c (List.dropLast_sublist _)
        refine ⟨⟨?_, ?_⟩, ?_⟩
        · intro x hx
          rw [hstrip2] at hx
          exact h.1.1 x (by rw [hstrip]; exact hsub.mem hx)
        · rw [hstrip2]
          have h1 : List.count '.' (c :: y :: r2) ≤ 1 := by
            have := h.1.2
            rw [hstrip] at this
            exact this
          exact le_trans (hsub.count_le '.') h1
        · rw [hstrip2]
          simp

theorem inputDigit_goodBuf (d : Char) (s : Session) (hd : d.isDigit = true)
    (h : GoodBufS s.display) : GoodBufS (inputDigit d s).display := by
  unfold inputDigit
  split
  · exact goodBufS_single_digit d hd
  · split
    · exact goodBufS_single_digit d hd
    · split
      · have hs : stripNeg ['-', d] = [d] := by rw [stripNeg_cons, if_pos rfl]
        have hsd : stripNeg [d] = [d] := by
          rw [stripNeg_cons, if_neg (isDigit_ne_minus d hd)]
        have base := goodBufS_single_digit d hd
        refine ⟨⟨?_, ?_⟩, ?_⟩
        · intro c hc
          rw [hs] at hc
          exact base.1.1 c (by rw [hsd]; exact hc)
        · rw [hs]
          have h1 := base.1.2
          rw [hsd] at h1
          exact h1
        · rw [hs]; simp
      · exact goodBufS_append_digit s.display d h hd

theorem inputDecimal_goodBuf (s : Session) (h : GoodBufS s.display) :
    GoodBufS (inputDecimal s).display := by
  unfold inputDecimal
  split
  · exact (show GoodBufS ['0', '.'] by refine ⟨⟨?_, ?_⟩, ?_⟩ <;> decide)
  · split
    · exact h
    · rename_i hnc
      exact goodBufS_append_dot s.display h (by simpa using hnc)

theorem backspace_goodBuf (s : Session) (h : GoodBufS s.display) :
    GoodBufS (backspace s).display := by
  by_cases hj : s.justEvaluated
  · have hdisp : (backspace s).display = ['0'] := by simp [backspace, hj]
    rw [hdisp]
    exact goodBufS_zero
  · by_cases hlen : 1 < s.display.length
    · by_cases hm : s.display.dropLast = ['-']
      · have hdisp : (backspace s).display = ['0'] := by
          simp [backspace, hj, hlen, hm]
        rw [hdisp]
        exact goodBufS_zero
      · have hdisp : (backspace s).display = s.display.dropLast := by
          simp [backspace, hj, hlen, hm]
        rw [hdisp]
        exact goodBufS_dropLast s.display h hlen hm
    · have hdisp : (backspace s).display = ['0'] := by
        simp [backspace, hj, hlen]
      rw [hdisp]
      exact goodBufS_zero

theorem toggleSign_goodBuf (s : Session) (h : GoodBufS s.display) :
    GoodBufS (toggleSign s).display := by
  by_cases hneg : s.display.take 1 = ['-']
  · have hdisp : (toggleSign s).display = s.display.drop 1 := by
      simp [toggleSign, hneg]
    rw [hdisp]
    cases hcs : s.display with
    | nil =>
      rw [hcs] at hneg
      simp at hneg
    | cons c r =>
      rw [hcs] at hneg
      simp at hneg
      subst hneg
      rw [hcs] at h
      obtain ⟨⟨ha, hcnt⟩, hne⟩ := h
      have hstrip : stripNeg ('-' :: r) = r := by rw [stripNeg_cons, if_pos rfl]
      rw [hstrip] at ha hcnt hne
      have hrr : stripNeg r = r := by
        cases r with
        | nil => rfl
        | cons y r2 =>
          rw [stripNeg_cons, if_neg (dotOrDigit_ne_minus y (ha y (by simp)))]
      simp only [List.drop_succ_cons, List.drop_zero]
      exact ⟨⟨by rw [hrr]; exact ha, by rw [hrr]; exact hcnt⟩, by rw [hrr]; exact hne⟩
  · by_cases h0 : s.display = ['0']
    · have hdisp : (toggleSign s).display = s.display := by
        simp [toggleSign, hneg, h0]
      rw [hdisp]
      exact h
    · have hdisp : (toggleSign s).display = '-' :: s.display := by
        simp [toggleSign, hneg, h0]
      rw [hdisp]
      obtain ⟨⟨ha, hcnt⟩, hne⟩ := h
      have hdisp_ne : s.display ≠ [] := by
        intro hnil
        rw [hnil] at hne
        exact hne rfl
      cases hcs : s.display with
      | nil => exact absurd hcs hdisp_ne
      | cons c r =>
        have hc : ¬ c = '-' := by
          intro hcm
          rw [hcs, hcm] at hneg
          simp at hneg
        rw [hcs] at ha hcnt hne
        have hstrip : stripNeg (c :: r) = c :: r := by rw [stripNeg_cons, if_neg hc]
        have hstrip2 : stripNeg ('-' :: c :: r) = c :: r := by
          rw [stripNeg_cons, if_pos rfl]
        refine ⟨⟨?_, ?_⟩, ?_⟩
        · intro x hx
          rw [hstrip2] at hx
          exact ha x (by rw [hstrip]; exact hx)
        · rw [hstrip2]
          have h1 := hcnt
          rw [hstrip] at h1
          exact h1
        · rw [hstrip2]; simp

theorem inputOperator_goodBuf (o : Op) (s : Session) (h : GoodBufS s.display) :
    GoodBufS (inputOperator o s).display := by
  by_cases hl : lastIsOp s.tokens = true
  · have hdisp : (inputOperator o s).display = s.display := by
      simp [inputOperator, hl]
    rw [hdisp]
    exact h
  · have hdisp : (inputOperator o s).display = ['0'] := by
      simp [inputOperator, hl]
    rw [hdisp]
    exact goodBufS_zero

theorem reachNE_goodBuf (s : Session) (h : ReachNE s) : GoodBufS s.display := by
  obtain ⟨acts, hok, hrun⟩ := h
  subst hrun
  refine run_inv nonEvalAct (fun t => GoodBufS t.display) ?_ acts initSession hok
    goodBufS_zero
  intro a t ha ht
  cases a with
  | digit d =>
    have hd : d.isDigit = true := by simpa [nonEvalAct, actOk] using ha
    exact inputDigit_goodBuf d t hd ht
  | dec => exact inputDecimal_goodBuf t ht
  | back => exact backspace_goodBuf t ht
  | sgn => exact toggleSign_goodBuf t ht
  | pct => simp [nonEvalAct] at ha
  | op o => exact inputOperator_goodBuf o t ht
  | eval => simp [nonEvalAct] at ha
  | clear => exact goodBufS_zero

/-- C3 (counterexample): evaluating 1000000 times 1000000 is a
reachable trace of section 4.4 operations whose final display buffer is
the exponential string 1.000000e+12, which contains the characters e
and plus and therefore violates the claimed buffer invariant. -/
theorem claim3_counterexample :
    Reach (run [Act.digit '1', Act.digit '0', Act.digit '0', Act.digit '0',
      Act.digit '0', Act.digit '0', Act.digit '0', Act.op Op.mul, Act.digit '1',
      Act.digit '0', Act.digit '0', Act.digit '0', Act.digit '0', Act.digit '0',
      Act.digit '0', Act.eval] initSession)
    ∧ (run [Act.digit '1', Act.digit '0', Act.digit '0', Act.digit '0',
      Act.digit '0', Act.digit '0', Act.digit '0', Act.op Op.mul, Act.digit '1',
      Act.digit '0', Act.digit '0', Act.digit '0', Act.digit '0', Act.digit '0',
      Act.digit '0', Act.eval] initSession).display = "1.000000e+12".data
    ∧ ¬ GoodBuf "1.000000e+12".data := by
  refine ⟨⟨[Act.digit '1', Act.digit '0', Act.digit '0', Act.digit '0',
      Act.digit '0', Act.digit '0', Act.digit '0', Act.op Op.mul, Act.digit '1',
      Act.digit '0', Act.digit '0', Act.digit '0', Act.digit '0', Act.digit '0',
      Act.digit '0', Act.eval], rfl, rfl⟩, ?_, ?_⟩
  · with_unfolding_all decide
  · intro hg
    exact absurd (hg.1 'e' (by decide)) (by decide)

/-- C3 (amended): in every session reachable from the initial session
by the editing operations OTHER than evaluate and percent, the display
buffer satisfies the invariant: after an optional leading minus sign it
consists of digits and at most one decimal point, and contains no other
minus sign; evaluate (and percent) can instead install formatted result
strings in exponential notation, such as 1.000000e+12, that break the
invariant. -/
theorem claim3_amended (s : Session) (h : ReachNE s) : GoodBuf s.display :=
  (reachNE_goodBuf s h).1

/-- C3 (witness): the buffer 1.5, reached by the keys 1, point, 5,
satisfies the invariant. -/
theorem claim3_witness : GoodBuf ['1', '.', '5'] := by
  have hr : ReachNE ⟨['1', '.', '5'], [], false⟩ := by
    refine ⟨[Act.digit '1', Act.dec, Act.digit '5'], rfl, ?_⟩
    with_unfolding_all decide
  exact claim3_amended ⟨['1', '.', '5'], [], false⟩ hr


theorem digitChar_isDigit (n : ℕ) (h : n < 10) : (digitChar n).isDigit = true := by
  interval_cases n <;> decide

theorem natDigitsRevFuel_all (fuel : ℕ) : ∀ n, n < fuel →
    (natDigitsRevFuel fuel n).all Char.isDigit = true := by
  induction fuel with
  | zero => intro n h; omega
  | succ f ih =>
    intro n h
    rw [natDigitsRevFuel]
    by_cases h10 : n < 10
    · rw [if_pos h10]
      simp [digitChar_isDigit n h10]
    · rw [if_neg h10]
      rw [List.all_cons, Bool.and_eq_true]
      refine ⟨digitChar_isDigit _ (Nat.mod_lt _ (by norm_num)), ?_⟩
      have hlt : n / 10 < n := Nat.div_lt_self (by omega) (by norm_num)
      exact ih (n / 10) (by omega)

theorem natDigitsRevFuel_len (fuel : ℕ) : ∀ n k, n < fuel → n < 10 ^ k → 1 ≤ k →
    (natDigitsRevFuel fuel n).length ≤ k := by
  induction fuel with
  | zero => intro n k h _ _; omega
  | succ f ih =>
    intro n k h hk h1
    rw [natDigitsRevFuel]
    by_cases h10 : n < 10
    · rw [if_pos h10]
      simpa using h1
    · rw [if_neg h10]
      rw [List.length_cons]
      have hk2 : 2 ≤ k := by
        by_contra hlt
        push_neg at hlt
        interval_cases k
        exact h10 (by simpa using hk)
      have hkk : k - 1 + 1 = k := by omega
      have hpow : 10 ^ k = 10 ^ (k - 1) * 10 := by
        conv_lhs => rw [← hkk]
        rw [pow_succ]
      have hdiv : n / 10 < 10 ^ (k - 1) := by
        refine Nat.div_lt_of_lt_mul ?_
        rw [Nat.mul_comm]
        omega
      have hlt : n / 10 < n := Nat.div_lt_self (by omega) (by norm_num)
      have hrec := ih (n / 10) (k - 1) (by omega) hdiv (by omega)
      omega

theorem natStr_all_digits (n : ℕ) : (natStr n).all Char.isDigit = true := by
  unfold natStr natDigitsRev
  rw [List.all_reverse]
  exact natDigitsRevFuel_all (n + 1) n (by omega)

theorem natStr_len_le (n k : ℕ) (h : n < 10 ^ k) (hk : 1 ≤ k) :
    (natStr n).length ≤ k := by
  unfold natStr natDigitsRev
  rw [List.length_reverse]
  exact natDigitsRevFuel_len (n + 1) n k (by omega) h hk

theorem padLeft_length (w n : ℕ) (h : (natStr n).length ≤ w) :
    (padLeft w n).length = w := by
  unfold padLeft
  rw [List.length_append, List.length_replicate]
  omega

theorem padLeft_all_digits (w n : ℕ) : (padLeft w n).all Char.isDigit = true := by
  unfold padLeft
  rw [List.all_append, Bool.and_eq_true]
  refine ⟨?_, natStr_all_digits n⟩
  rw [List.all_eq_true]
  intro c hc
  rw [List.eq_of_mem_replicate hc]
  decide

theorem all_of_sublist (p : Char → Bool) (s l : List Char) (hs : s.Sublist l)
    (h : l.all p = true) : s.all p = true := by
  rw [List.all_eq_true] at h ⊢
  intro c hc
  exact h c (hs.subset hc)

theorem dropTrailingZeros_sublist (l : List Char) :
    (dropTrailingZeros l).Sublist l := by
  unfold dropTrailingZeros
  have h := (List.dropWhile_sublist (l := l.reverse) (p := fun c => c == '0')).reverse
  simpa using h

theorem all_not_dot_of_digits (l : List Char) (h : l.all Char.isDigit = true) :
    l.all (fun c => !(c == '.')) = true := by
  rw [List.all_eq_true] at h ⊢
  intro c hc
  have hd := h c hc
  simpa using isDigit_ne_dot c hd

theorem all_not_e_of_digits (l : List Char) (h : l.all Char.isDigit = true) :
    l.all (fun c => !(c == 'e')) = true := by
  rw [List.all_eq_true] at h ⊢
  intro c hc
  have hd := h c hc
  have : ¬ c = 'e' := by
    intro hce
    subst hce
    exact absurd hd (by decide)
  simpa using this

theorem dropWhile_append_all (p : Char → Bool) (l r : List Char)
    (h : l.all p = true) : (l ++ r).dropWhile p = r.dropWhile p := by
  induction l with
  | nil => rfl
  | cons c l2 ih =>
    rw [List.all_cons, Bool.and_eq_true] at h
    rw [List.cons_append, List.dropWhile_cons, if_pos h.1]
    exact ih h.2

theorem takeWhile_append_stop (p : Char → Bool) (l r : List Char) (c : Char)
    (h : l.all p = true) (hc : p c = false) :
    (l ++ c :: r).takeWhile p = l := by
  induction l with
  | nil =>
    rw [List.nil_append, List.takeWhile_cons, hc]
    simp
  | cons x l2 ih =>
    rw [List.all_cons, Bool.and_eq_true] at h
    rw [List.cons_append, List.takeWhile_cons, h.1]
    simp [ih h.2]

theorem dropWhile_eq_nil_of_all (p : Char → Bool) (l : List Char)
    (h : l.all p = true) : l.dropWhile p = [] := by
  induction l with
  | nil => rfl
  | cons c r ih =>
    rw [List.all_cons, Bool.and_eq_true] at h
    rw [List.dropWhile_cons, if_pos h.1]
    exact ih h.2

theorem group3Rev_all (p : Char → Bool) (hp : p ',' = true) :
    ∀ l : List Char, l.all p = true → (group3Rev l).all p = true := by
  intro l
  induction l using group3Rev.induct with
  | case1 d1 d2 d3 d4 rest ih =>
    intro h
    rw [group3Rev]
    simp only [List.all_cons, Bool.and_eq_true] at h ⊢
    refine ⟨h.1, h.2.1, h.2.2.1, hp, ih ?_⟩
    simp only [List.all_cons, Bool.and_eq_true]
    exact h.2.2.2
  | case2 l h1 =>
    intro h
    rw [group3Rev.eq_def]
    split
    · exact absurd rfl (h1 _ _ _ _ _)
    · exact h

theorem group3_all (p : Char → Bool) (hp : p ',' = true) (l : List Char)
    (h : l.all p = true) : (group3 l).all p = true := by
  unfold group3
  rw [List.all_reverse]
  exact group3Rev_all p hp l.reverse (by rw [List.all_reverse]; exact h)

theorem sixMantissaDigits_shape (p1 p2 frac rest : List Char)
    (h1 : p1.all (fun c => !(c == '.')) = true)
    (h2 : p2.all (fun c => !(c == '.')) = true)
    (hlen : frac.length = 6) (hdig : frac.all Char.isDigit = true) :
    sixMantissaDigits (p1 ++ p2 ++ '.' :: frac ++ 'e' :: rest) = true := by
  have hassoc : p1 ++ p2 ++ '.' :: frac ++ 'e' :: rest
      = p1 ++ (p2 ++ '.' :: (frac ++ 'e' :: rest)) := by
    simp [List.append_assoc]
  rw [hassoc]
  unfold sixMantissaDigits afterDot
  rw [dropWhile_append_all _ _ _ h1, dropWhile_append_all _ _ _ h2,
    List.dropWhile_cons]
  rw [if_neg (by decide)]
  simp only [List.drop_succ_cons, List.drop_zero]
  rw [takeWhile_append_stop _ _ _ _ (all_not_e_of_digits frac hdig) (by decide)]
  rw [hlen]
  simp [hdig]

theorem fracDigitsAtMost10_shape (p1 p2 : List Char) (fr : ℕ)
    (h1 : p1.all (fun c => !(c == '.')) = true)
    (h2 : p2.all (fun c => !(c == '.')) = true)
    (hfr : fr < 10 ^ 10) :
    fracDigitsAtMost10 (p1 ++ p2 ++
      (if fr = 0 then [] else '.' :: dropTrailingZeros (padLeft 10 fr))) = true := by
  rw [List.append_assoc]
  by_cases h0 : fr = 0
  · rw [if_pos h0]
    unfold fracDigitsAtMost10 afterDot
    rw [dropWhile_append_all _ _ _ h1, dropWhile_append_all _ _ _ h2]
    decide
  · rw [if_neg h0]
    unfold fracDigitsAtMost10 afterDot
    rw [dropWhile_append_all _ _ _ h1, dropWhile_append_all _ _ _ h2,
      List.dropWhile_cons]
    rw [if_neg (by decide)]
    simp only [List.drop_succ_cons, List.drop_zero]
    have hplen : (padLeft 10 fr).length = 10 :=
      padLeft_length 10 fr (natStr_len_le fr 10 hfr (by norm_num))
    have hlen : (dropTrailingZeros (padLeft 10 fr)).length ≤ 10 := by
      have hsub := (dropTrailingZeros_sublist (padLeft 10 fr)).length_le
      omega
    have hdig : (dropTrailingZeros (padLeft 10 fr)).all Char.isDigit = true :=
      all_of_sublist _ _ _ (dropTrailingZeros_sublist (padLeft 10 fr))
        (padLeft_all_digits 10 fr)
    simp [hlen, hdig]

theorem expRender_sixMantissa (q : ℚ) (m : ℕ) (e2 : ℤ) :
    sixMantissaDigits (expRender q m e2) = true := by
  unfold expRender
  exact sixMantissaDigits_shape (if q < 0 then ['-'] else [])
    (natStr (m / 10 ^ 6)) (padLeft 6 (m % 10 ^ 6))
    ((if e2 < 0 then '-' else '+') :: natStr e2.natAbs)
    (by split <;> decide)
    (all_not_dot_of_digits _ (natStr_all_digits _))
    (padLeft_length 6 _ (natStr_len_le _ 6 (Nat.mod_lt _ (by norm_num))
      (by norm_num)))
    (padLeft_all_digits 6 _)

theorem fixedRender_fracDigits (q : ℚ) (total : ℕ) :
    fracDigitsAtMost10 (fixedRender q total) = true := by
  unfold fixedRender
  exact fracDigitsAtMost10_shape (if q < 0 then ['-'] else [])
    (group3 (natStr (total / 10 ^ 10))) (total % 10 ^ 10)
    (by split <;> decide)
    (group3_all _ (by decide) _
      (all_not_dot_of_digits _ (natStr_all_digits _)))
    (Nat.mod_lt _ (by norm_num))

theorem sixMantissa_toExponential (q : ℚ) (hq : ¬ q = 0) :
    sixMantissaDigits (toExponential6 q) = true := by
  rw [toExponential6, if_neg hq]
  exact expRender_sixMantissa q _ _

theorem fracDigits_toLocale (q : ℚ) :
    fracDigitsAtMost10 (toLocaleString10 q) = true := by
  rw [toLocaleString10]
  exact fixedRender_fracDigits q _

theorem pow10_eq (n : ℕ) : pow10 n = 10 ^ n := by
  induction n with
  | zero => rfl
  | succ k ih => rw [pow10, ih, pow_succ]

theorem qabs_eq (q : ℚ) : qabs q = |q| := by
  unfold qabs
  by_cases h : q < 0
  · rw [if_pos h, abs_of_neg h]
  · rw [if_neg h, abs_of_nonneg (le_of_not_lt h)]

/-- C7: `formatNumber` returns Error exactly on the non-finite inputs,
renders negative zero exactly as positive zero, picks the exponential
renderer exactly when the absolute value is at least ten to the twelfth
or nonzero and below ten to the minus sixth, and the fixed renderer
otherwise; every exponential rendering has exactly six digits between
the decimal point and the exponent marker, and every fixed rendering
has at most ten fractional digits. -/
theorem claim7_format :
    (∀ n, isFiniteJS n = false → formatNumber n = "Error".data)
    ∧ formatNumber JSNum.negZero = formatNumber (JSNum.fin 0)
    ∧ (∀ q : ℚ, (10 ^ 12 ≤ |q| ∨ (|q| ≠ 0 ∧ |q| < 1 / 10 ^ 6)) →
        formatNumber (JSNum.fin q) = toExponential6 q)
    ∧ (∀ q : ℚ, ¬ (10 ^ 12 ≤ |q| ∨ (|q| ≠ 0 ∧ |q| < 1 / 10 ^ 6)) →
        formatNumber (JSNum.fin q) = toLocaleString10 q)
    ∧ (∀ q : ℚ, ¬ q = 0 → sixMantissaDigits (toExponential6 q) = true)
    ∧ (∀ q : ℚ, fracDigitsAtMost10 (toLocaleString10 q) = true) := by
  refine ⟨?_, rfl, ?_, ?_, sixMantissa_toExponential, fracDigits_toLocale⟩
  · intro n h
    cases n with
    | nan => rfl
    | inf s => rfl
    | negZero => simp [isFiniteJS] at h
    | fin q => simp [isFiniteJS] at h
  · intro q h
    have hcond : pow10 12 ≤ qabs q ∨ (qabs q ≠ 0 ∧ qabs q < 1 / pow10 6) := by
      rw [pow10_eq, pow10_eq, qabs_eq]
      exact h
    show formatFin q = toExponential6 q
    unfold formatFin
    rw [if_pos hcond]
  · intro q h
    have hcond : ¬ (pow10 12 ≤ qabs q ∨ (qabs q ≠ 0 ∧ qabs q < 1 / pow10 6)) := by
      rw [pow10_eq, pow10_eq, qabs_eq]
      exact h
    show formatFin q = toLocaleString10 q
    unfold formatFin
    rw [if_neg hcond]

/-- C7 (witness): ten to the twelfth falls in the exponential tier, one
half in the fixed tier, and NaN formats as Error. -/
theorem claim7_witness :
    formatNumber (JSNum.fin (10 ^ 12)) = toExponential6 (10 ^ 12)
    ∧ formatNumber (JSNum.fin (1 / 2)) = toLocaleString10 (1 / 2)
    ∧ isFiniteJS JSNum.nan = false
    ∧ formatNumber JSNum.nan = "Error".data
    ∧ sixMantissaDigits (toExponential6 (10 ^ 12)) = true := by
  have habs : |(10 : ℚ) ^ 12| = 10 ^ 12 := abs_of_nonneg (by positivity)
  have habs2 : |(1 : ℚ) / 2| = 1 / 2 := abs_of_nonneg (by norm_num)
  refine ⟨?_, ?_, rfl, claim7_format.1 JSNum.nan rfl,
    claim7_format.2.2.2.2.1 (10 ^ 12) (by norm_num)⟩
  · exact claim7_format.2.2.1 (10 ^ 12) (Or.inl (by rw [habs]))
  · refine claim7_format.2.2.2.1 (1 / 2) ?_
    rw [habs2]
    push_neg
    norm_num
